import Mathlib

/-!
# ComfyData schema editor core — shallow embedding and verification

Shallow embedding of the schema-tree core of the ComfyData repository:

* the editor field record (`JField`) as stored in `state.fields`
  (web/functions/state.js), with `Option` components modelling property
  presence on the JavaScript object;
* `ensureFieldShape` (web/functions/state.js, ref-aware version);
* `flattenRows`, `getFieldByPath`, `getFieldsListAtPath`, `pathKey`
  (web/functions/nesting.js);
* the document codec `buildFieldsDocFromList` / `docFieldsToStateList`
  (web/functions/yamlish.js), with the persisted field mapping modelled as an
  insertion-ordered association list;
* `normalizeValuesToCsv` (web/functions/inline_edit.js);
* `deriveGraphFromState` and the reference-picker commit behaviour of
  `openRefPicker` (the PR3a editor extension);
* the delete-row handler's removal logic (`removeAt`);
* the type-picker kind-change transition (`applyTypePick`);
* stateful variants `getFieldByPathM` / `flattenRowsM` that make the
  in-place `ensureFieldShape` normalisation performed during reads explicit.

Theorems below settle the specification claims about these functions.
-/

/-- A JavaScript string trim: drop whitespace from both ends. Implemented
structurally over the character list so that concrete instances evaluate. -/
def jsTrim (s : String) : String :=
  ⟨((s.data.dropWhile Char.isWhitespace).reverse.dropWhile
      Char.isWhitespace).reverse⟩

/-- Split a character list at every occurrence of a separator satisfying `p`,
keeping empty segments — the behaviour of JavaScript `String.split` with a
single-character-class separator. -/
def splitPredAux (p : Char → Bool) : List Char → List Char → List String
  | [], acc => [⟨acc.reverse⟩]
  | c :: cs, acc =>
    if p c then ⟨acc.reverse⟩ :: splitPredAux p cs []
    else splitPredAux p cs (c :: acc)

/-- JS `s.split(",")`. -/
def jsSplitComma (s : String) : List String :=
  splitPredAux (fun c => c = ',') s.data []

/-- JS `s.toLowerCase()` (ASCII model). -/
def jsToLower (s : String) : String := ⟨s.data.map Char.toLower⟩

/-- One editor field record as stored in `state.fields`. Each component is
`Option`al, modelling presence of the corresponding property on the
JavaScript object (`none` = property absent or not of the expected type). -/
inductive JField : Type where
  | mk : (name : Option String) → (type : Option String) →
      (values_csv : Option String) → (fields : Option (List JField)) →
      (expanded : Option Bool) → (required : Option Bool) →
      (ref : Option String) → JField

mutual

def JField.decEq : (a b : JField) → Decidable (a = b)
  | .mk n₁ t₁ v₁ c₁ e₁ r₁ f₁, .mk n₂ t₂ v₂ c₂ e₂ r₂ f₂ =>
    if h₁ : n₁ = n₂ then
      if h₂ : t₁ = t₂ then
        if h₃ : v₁ = v₂ then
          if h₅ : e₁ = e₂ then
            if h₆ : r₁ = r₂ then
              if h₇ : f₁ = f₂ then
                match JField.decEqOpt c₁ c₂ with
                | isTrue h₄ => isTrue (by rw [h₁, h₂, h₃, h₄, h₅, h₆, h₇])
                | isFalse h₄ => isFalse (fun h => h₄ (by injection h))
              else isFalse (fun h => h₇ (by injection h))
            else isFalse (fun h => h₆ (by injection h))
          else isFalse (fun h => h₅ (by injection h))
        else isFalse (fun h => h₃ (by injection h))
      else isFalse (fun h => h₂ (by injection h))
    else isFalse (fun h => h₁ (by injection h))

def JField.decEqOpt : (a b : Option (List JField)) → Decidable (a = b)
  | none, none => isTrue rfl
  | none, some _ => isFalse (by simp)
  | some _, none => isFalse (by simp)
  | some l₁, some l₂ =>
    match JField.decEqList l₁ l₂ with
    | isTrue h => isTrue (by rw [h])
    | isFalse h => isFalse (fun hh => h (by injection hh))

def JField.decEqList : (a b : List JField) → Decidable (a = b)
  | [], [] => isTrue rfl
  | [], _ :: _ => isFalse (by simp)
  | _ :: _, [] => isFalse (by simp)
  | x :: xs, y :: ys =>
    match JField.decEq x y, JField.decEqList xs ys with
    | isTrue h₁, isTrue h₂ => isTrue (by rw [h₁, h₂])
    | isFalse h₁, _ => isFalse (fun h => h₁ (by injection h))
    | _, isFalse h₂ => isFalse (fun h => h₂ (by injection h))

end

instance : DecidableEq JField := JField.decEq

namespace JField

def name : JField → Option String
  | .mk n _ _ _ _ _ _ => n

def type : JField → Option String
  | .mk _ t _ _ _ _ _ => t

def values_csv : JField → Option String
  | .mk _ _ v _ _ _ _ => v

def fields : JField → Option (List JField)
  | .mk _ _ _ c _ _ _ => c

def expanded : JField → Option Bool
  | .mk _ _ _ _ e _ _ => e

def required : JField → Option Bool
  | .mk _ _ _ _ _ r _ => r

def ref : JField → Option String
  | .mk _ _ _ _ _ _ r => r

/-- The children list the source reads as `f.fields || []`. -/
def childList : JField → List JField
  | .mk _ _ _ c _ _ _ => c.getD []

end JField

/-- `PRIMITIVE_TYPES` from web/functions/constants.js. -/
def PRIMITIVE_TYPES : List String := ["uuid", "int", "str", "decimal"]

/-- `FIELD_TYPES` from web/functions/constants.js (ref-aware editor). -/
def FIELD_TYPES : List String :=
  ["uuid", "int", "str", "decimal", "single-select", "object", "ref"]

/-- `ensureFieldShape` from web/functions/state.js (the exported, ref-aware
version): coerce missing name/type, keep `values_csv` as a string on
single-select fields, give object fields a children array and a boolean
`expanded`, delete `fields`/`expanded` on non-objects and `ref` on non-refs,
and default `required` to a boolean. -/
def ensureFieldShape (f : JField) : JField :=
  let n := f.name.getD ""
  let t := f.type.getD "str"
  let v := if t = "single-select" then some (f.values_csv.getD "") else f.values_csv
  let c := if t = "object" then some f.childList else none
  let e := if t = "object" then some (f.expanded.getD false) else none
  let r := if t = "ref" then some (f.ref.getD "") else none
  .mk (some n) (some t) v c e (some (f.required.getD false)) r

example :
    ensureFieldShape (.mk none none none none none none none)
      = .mk (some "") (some "str") none none none (some false) none := by
  decide

example :
    ensureFieldShape (.mk (some "h") (some "object") none none none none none)
      = .mk (some "h") (some "object") none (some []) (some false) (some false) none := by
  decide

/-- The children list of a shaped field: when the shaped type is `object` it is
the original `fields || []` list (which `flattenRows` recurses on), otherwise
the `fields` property has been deleted. -/
theorem childList_ensureFieldShape (f : JField)
    (h : (ensureFieldShape f).type = some "object") :
    (ensureFieldShape f).childList = f.childList := by
  cases f with
  | mk n t v c e r rf =>
    simp only [ensureFieldShape, JField.type] at h ⊢
    by_cases ht : t.getD "str" = "object" <;> simp [ht, JField.childList] at h ⊢

theorem sizeOf_childList_lt (f : JField) : sizeOf f.childList < sizeOf f := by
  cases f with
  | mk n t v c e r rf =>
    cases c with
    | none => simp [JField.childList]; omega
    | some l => simp [JField.childList]; omega

/-- One display row produced by `flattenRows`. -/
inductive Row : Type where
  | field (path : List Nat) (depth : Nat) (f : JField)
  | add_child (parentPath : List Nat) (depth : Nat)
  deriving DecidableEq

/-- The indexed loop body of `flattenRows` (web/functions/nesting.js): shape
the field at index `i`, emit its field row, and — when it is an expanded
object — its recursively flattened children followed by one add-child row. -/
def flattenGo (l : List JField) (depth : Nat) (basePath : List Nat) (i : Nat) :
    List Row :=
  match l with
  | [] => []
  | f0 :: rest =>
    let f := ensureFieldShape f0
    let p := basePath ++ [i]
    Row.field p depth f ::
      ((if f.type = some "object" ∧ f.expanded = some true then
          flattenGo f0.childList (depth + 1) p 0 ++ [Row.add_child p (depth + 1)]
        else []) ++ flattenGo rest depth basePath (i + 1))
termination_by sizeOf l
decreasing_by
  all_goals have := sizeOf_childList_lt f0
  all_goals simp
  all_goals try omega

/-- `flattenRows` from web/functions/nesting.js. -/
def flattenRows (fieldsList : List JField) (depth : Nat := 0)
    (basePath : List Nat := []) : List Row :=
  flattenGo fieldsList depth basePath 0

/-- `pathKey` from web/functions/nesting.js: dot-joined indices. -/
def pathKey (path : List Nat) : String :=
  String.intercalate "." (path.map toString)

/-- `getFieldByPath` from web/functions/nesting.js, with the state's root
field list passed directly. Walks the index path, shaping each visited field;
fails on an out-of-bounds index or a non-object at a non-last segment. -/
def getFieldByPath (l : List JField) : List Nat → Option JField
  | [] => none
  | i :: rest =>
    if _ : i < l.length then
      let cur := ensureFieldShape l[i]
      match rest with
      | [] => some cur
      | _ :: _ =>
        if cur.type = some "object" then getFieldByPath cur.childList rest
        else none
    else none

/-- `getFieldsListAtPath` from web/functions/nesting.js. -/
def getFieldsListAtPath (l : List JField) (parentPath : List Nat) :
    Option (List JField) :=
  if parentPath = [] then some l
  else
    match getFieldByPath l parentPath with
    | none => none
    | some parent =>
      if parent.type = some "object" then some parent.childList else none

def Row.isField : Row → Bool
  | .field _ _ _ => true
  | _ => false

def Row.isAddChild : Row → Bool
  | .add_child _ _ => true
  | _ => false

mutual

/-- Claim-side specification of one field's block of rows: its own `FieldRow`,
then — only when it is an expanded object — its children's rows followed by
exactly one `AddChildRow` whose `parentPath` is the object's own path and
whose depth is the object's depth plus one. -/
def specBlock (f0 : JField) (depth : Nat) (p : List Nat) : List Row :=
  let f := ensureFieldShape f0
  Row.field p depth f ::
    (if f.type = some "object" ∧ f.expanded = some true then
      specRows f0.childList (depth + 1) p 0 ++ [Row.add_child p (depth + 1)]
    else [])
termination_by sizeOf f0
decreasing_by
  have := sizeOf_childList_lt f0; omega

/-- Claim-side specification of the flattened row list: the concatenation of
each sibling's block, siblings taken in order at consecutive index paths. -/
def specRows : List JField → Nat → List Nat → Nat → List Row
  | [], _, _, _ => []
  | f0 :: rest, d, base, i =>
    specBlock f0 d (base ++ [i]) ++ specRows rest d base (i + 1)
termination_by l _ _ _ => sizeOf l
decreasing_by
  all_goals simp
  all_goals omega

end

/-- Number of reachable fields (claim-side): every field of the list counts,
and the fields of a child list count exactly when their parent is an expanded
object. -/
def countReachable (l : List JField) : Nat :=
  match l with
  | [] => 0
  | f0 :: rest =>
    let f := ensureFieldShape f0
    1 + (if f.type = some "object" ∧ f.expanded = some true then
          countReachable f0.childList
        else 0) + countReachable rest
termination_by sizeOf l
decreasing_by
  all_goals have := sizeOf_childList_lt f0
  all_goals simp
  all_goals try omega

/-- Number of reachable expanded object fields (claim-side). -/
def countReachableExpanded (l : List JField) : Nat :=
  match l with
  | [] => 0
  | f0 :: rest =>
    let f := ensureFieldShape f0
    (if f.type = some "object" ∧ f.expanded = some true then
      1 + countReachableExpanded f0.childList
    else 0) + countReachableExpanded rest
termination_by sizeOf l
decreasing_by
  all_goals have := sizeOf_childList_lt f0
  all_goals simp
  all_goals try omega

theorem flattenGo_eq_specRows_aux :
    ∀ (n : Nat) (l : List JField), sizeOf l ≤ n →
      ∀ (d : Nat) (base : List Nat) (i : Nat),
        flattenGo l d base i = specRows l d base i := by
  intro n
  induction n with
  | zero =>
    intro l hl
    cases l with
    | nil => intro d base i; simp [flattenGo, specRows]
    | cons f0 rest => simp at hl
  | succ n ih =>
    intro l hl d base i
    cases l with
    | nil => simp [flattenGo, specRows]
    | cons f0 rest =>
      have h1 : sizeOf f0.childList ≤ n := by
        have := sizeOf_childList_lt f0; simp at hl; omega
      have h2 : sizeOf rest ≤ n := by simp at hl; omega
      rw [flattenGo, specRows, specBlock]
      simp only [ih _ h1, ih _ h2]
      by_cases hc :
          (ensureFieldShape f0).type = some "object"
            ∧ (ensureFieldShape f0).expanded = some true <;>
        simp [hc]

theorem countReachable_eq_aux :
    ∀ (n : Nat) (l : List JField), sizeOf l ≤ n →
      ∀ (d : Nat) (base : List Nat) (i : Nat),
        ((flattenGo l d base i).countP Row.isField) = countReachable l := by
  intro n
  induction n with
  | zero =>
    intro l hl
    cases l with
    | nil => intro d base i; simp [flattenGo, countReachable]
    | cons f0 rest => simp at hl
  | succ n ih =>
    intro l hl d base i
    cases l with
    | nil => simp [flattenGo, countReachable]
    | cons f0 rest =>
      have h1 : sizeOf f0.childList ≤ n := by
        have := sizeOf_childList_lt f0; simp at hl; omega
      have h2 : sizeOf rest ≤ n := by simp at hl; omega
      rw [flattenGo, countReachable]
      by_cases hc :
          (ensureFieldShape f0).type = some "object"
            ∧ (ensureFieldShape f0).expanded = some true <;>
        simp [hc, List.countP_cons, List.countP_append,
          ih _ h1 (d + 1) (base ++ [i]) 0, ih _ h2 d base (i + 1),
          Row.isField] <;> omega

theorem countReachableExpanded_eq_aux :
    ∀ (n : Nat) (l : List JField), sizeOf l ≤ n →
      ∀ (d : Nat) (base : List Nat) (i : Nat),
        ((flattenGo l d base i).countP Row.isAddChild) = countReachableExpanded l := by
  intro n
  induction n with
  | zero =>
    intro l hl
    cases l with
    | nil => intro d base i; simp [flattenGo, countReachableExpanded]
    | cons f0 rest => simp at hl
  | succ n ih =>
    intro l hl d base i
    cases l with
    | nil => simp [flattenGo, countReachableExpanded]
    | cons f0 rest =>
      have h1 : sizeOf f0.childList ≤ n := by
        have := sizeOf_childList_lt f0; simp at hl; omega
      have h2 : sizeOf rest ≤ n := by simp at hl; omega
      rw [flattenGo, countReachableExpanded]
      by_cases hc :
          (ensureFieldShape f0).type = some "object"
            ∧ (ensureFieldShape f0).expanded = some true <;>
        simp [hc, List.countP_cons, List.countP_append,
          ih _ h1 (d + 1) (base ++ [i]) 0, ih _ h2 d base (i + 1),
          Row.isAddChild]
      omega

/-- C5. `flattenRows` emits exactly the claim-specified row sequence: for each
field, in order, one `FieldRow`; an expanded object is immediately followed by
its recursively flattened children and then exactly one `AddChildRow` with the
object's own path as `parentPath` and the object's depth plus one as depth; a
collapsed object contributes its own `FieldRow` and nothing else. In
particular the number of `FieldRow`s equals the number of reachable fields and
the number of `AddChildRow`s equals the number of reachable expanded objects. -/
theorem flattenRows_matches_spec :
    (∀ (l : List JField) (d : Nat) (base : List Nat),
        flattenRows l d base = specRows l d base 0)
    ∧ (∀ l : List JField,
        ((flattenRows l).countP Row.isField) = countReachable l)
    ∧ (∀ l : List JField,
        ((flattenRows l).countP Row.isAddChild) = countReachableExpanded l) :=
  ⟨fun l d base => flattenGo_eq_specRows_aux (sizeOf l) l le_rfl d base 0,
   fun l => countReachable_eq_aux (sizeOf l) l le_rfl 0 [] 0,
   fun l => countReachableExpanded_eq_aux (sizeOf l) l le_rfl 0 [] 0⟩

/-- Claim-side resolution relation (from the resolver contract): a non-empty
index path addresses the shaped field at its last index, descending only
through fields whose shaped kind is `object`. -/
inductive Resolves : List JField → List Nat → JField → Prop where
  | last {l : List JField} {i : Nat} (h : i < l.length) :
      Resolves l [i] (ensureFieldShape l[i])
  | step {l : List JField} {i : Nat} {p : List Nat} {f : JField}
      (h : i < l.length) (hne : p ≠ [])
      (hobj : (ensureFieldShape l[i]).type = some "object")
      (hrec : Resolves (ensureFieldShape l[i]).childList p f) :
      Resolves l (i :: p) f

theorem getFieldByPath_some_iff :
    ∀ (p : List Nat) (l : List JField) (f : JField),
      getFieldByPath l p = some f ↔ p ≠ [] ∧ Resolves l p f := by
  intro p
  induction p with
  | nil =>
    intro l f
    constructor
    · intro h; simp [getFieldByPath] at h
    · rintro ⟨h, -⟩; exact absurd rfl h
  | cons j rest ih =>
    intro l f
    cases rest with
    | nil =>
      constructor
      · intro h
        simp only [getFieldByPath] at h
        split at h
        · exact ⟨by simp, Option.some_injective _ h ▸ Resolves.last ‹_›⟩
        · exact absurd h (by simp)
      · rintro ⟨-, hr⟩
        cases hr with
        | last h => simp [getFieldByPath, h]
        | step h hne hobj hrec => exact absurd rfl hne
    | cons q qs =>
      constructor
      · intro h
        simp only [getFieldByPath] at h
        split at h
        · split at h
          · obtain ⟨-, hr⟩ := (ih _ _).mp h
            exact ⟨by simp, Resolves.step ‹_› (by simp) ‹_› hr⟩
          · exact absurd h (by simp)
        · exact absurd h (by simp)
      · rintro ⟨-, hr⟩
        cases hr with
        | step h hne hobj hrec =>
          simp only [getFieldByPath, h, hobj, dif_pos, if_pos]
          exact (ih _ _).mpr ⟨hne, hrec⟩

theorem resolves_unique :
    ∀ {l : List JField} {p : List Nat} {f g : JField},
      Resolves l p f → Resolves l p g → f = g := by
  intro l p f g h1
  induction h1 generalizing g with
  | last h =>
    intro h2
    cases h2 with
    | last h' => rfl
    | step h' hne hobj hrec => exact absurd rfl hne
  | step h hne hobj hrec ih =>
    intro h2
    cases h2 with
    | last h' => exact absurd rfl hne
    | step h' hne' hobj' hrec' => exact ih hrec'

/-- C6. `getFieldByPath` returns exactly the field addressed by a valid
non-empty path (first conjunct: a successful lookup is equivalent to the
claim-side resolution relation, so an out-of-bounds index or a non-object at
a non-last segment yields `none`), and the addressed field is unique, so a
successful lookup is never a wrong node. The function is total, so it never
throws. -/
theorem getFieldByPath_resolution :
    (∀ (l : List JField) (p : List Nat) (f : JField),
        getFieldByPath l p = some f ↔ p ≠ [] ∧ Resolves l p f)
    ∧ (∀ (l : List JField) (p : List Nat) (f g : JField),
        Resolves l p f → Resolves l p g → f = g) :=
  ⟨fun l p f => getFieldByPath_some_iff p l f,
   fun _ _ _ _ h1 h2 => resolves_unique h1 h2⟩

/-- A two-level demo tree: an object field `o` holding one `int` field `x`. -/
def demoInner : JField :=
  .mk (some "x") (some "int") none none none (some false) none

def demoOuter : JField :=
  .mk (some "o") (some "object") none (some [demoInner]) (some true)
    (some false) none

theorem getFieldByPath_resolution_witness :
    getFieldByPath [demoOuter] [0, 0] = some demoInner ∧
      getFieldByPath [demoOuter] [0, 1] = none :=
  ⟨(getFieldByPath_resolution.1 [demoOuter] [0, 0] demoInner).mpr
      ⟨by decide,
        Resolves.step (l := [demoOuter]) (i := 0) (by decide) (by decide)
          (by decide)
          (by
            have : Resolves [demoInner] [0]
                (ensureFieldShape ([demoInner].get ⟨0, by decide⟩)) :=
              Resolves.last (by decide)
            simpa using this)⟩,
    by decide⟩

namespace JField

/-- Replace the `fields` property (the children list) of a field record,
modelling an in-place write through the alias returned by
`getFieldsListAtPath`. -/
def setChildren : JField → Option (List JField) → JField
  | .mk n t v _ e r rf, c => .mk n t v c e r rf

end JField

/-- The delete-row handler's removal logic (the PR3a editor, `onMouseDown`
delete branch): split the path into parent path and last index, resolve the
parent's sibling list — shaping every field visited on the way, exactly as
`getFieldsListAtPath` does — and splice the indexed entry out when the index
is in range; otherwise leave the list alone. -/
def removeAt (l : List JField) : List Nat → List JField
  | [] => l
  | [i] => if i < l.length then l.eraseIdx i else l
  | j :: q :: qs =>
    if _ : j < l.length then
      let f := ensureFieldShape l[j]
      if f.type = some "object" then
        l.set j (f.setChildren (some (removeAt f.childList (q :: qs))))
      else l.set j f
    else l

/-- A tree is well shaped when every field (recursively) is a fixed point of
`ensureFieldShape`, i.e. the lazy normalisation performed by reads is a
no-op on it. -/
def wellShapedB (l : List JField) : Bool :=
  match l with
  | [] => true
  | f0 :: rest =>
    decide (ensureFieldShape f0 = f0) && wellShapedB f0.childList && wellShapedB rest
termination_by sizeOf l
decreasing_by
  all_goals have := sizeOf_childList_lt f0
  all_goals simp
  all_goals try omega

/-- Every sibling list of the tree holds pairwise-distinct field values.
This models the distinct JavaScript object identities of sibling rows. -/
def siblingsNodupB (l : List JField) : Bool :=
  match l with
  | [] => true
  | f0 :: rest =>
    !(rest.contains f0) && siblingsNodupB f0.childList && siblingsNodupB rest
termination_by sizeOf l
decreasing_by
  all_goals have := sizeOf_childList_lt f0
  all_goals simp
  all_goals try omega

theorem wellShapedB_getElem {l : List JField} (hw : wellShapedB l = true)
    {j : Nat} (h : j < l.length) :
    ensureFieldShape l[j] = l[j] ∧ wellShapedB l[j].childList = true := by
  induction l generalizing j with
  | nil => simp at h
  | cons f rest ih =>
    rw [wellShapedB] at hw
    simp only [Bool.and_eq_true, decide_eq_true_eq] at hw
    cases j with
    | zero => exact ⟨hw.1.1, hw.1.2⟩
    | succ k =>
      simpa using ih hw.2 (Nat.lt_of_succ_lt_succ h)

theorem siblingsNodupB_getElem {l : List JField} (hn : siblingsNodupB l = true)
    {j : Nat} (h : j < l.length) :
    siblingsNodupB l[j].childList = true := by
  induction l generalizing j with
  | nil => simp at h
  | cons f rest ih =>
    rw [siblingsNodupB] at hn
    simp only [Bool.and_eq_true] at hn
    cases j with
    | zero => exact hn.1.2
    | succ k =>
      simpa using ih hn.2 (Nat.lt_of_succ_lt_succ h)

theorem siblingsNodupB_nodup {l : List JField} (hn : siblingsNodupB l = true) :
    l.Nodup := by
  induction l with
  | nil => exact List.nodup_nil
  | cons f rest ih =>
    rw [siblingsNodupB] at hn
    simp only [Bool.and_eq_true, Bool.not_eq_true', List.contains_eq_any_beq,
      List.any_eq_false, beq_iff_eq] at hn
    refine List.nodup_cons.mpr ⟨?_, ih hn.2⟩
    intro hmem
    exact hn.1.1 f hmem rfl

theorem set_getElem_self_eq {α : Type _} {l : List α} {i : Nat}
    (h : i < l.length) : l.set i l[i] = l := by
  apply List.ext_getElem (by simp)
  intro k hk1 hk2
  by_cases hki : i = k
  · subst hki; simp
  · rw [List.getElem_set_ne hki]

theorem type_setChildren (f : JField) (c : Option (List JField)) :
    (f.setChildren c).type = f.type := by
  cases f; rfl

theorem childList_setChildren (f : JField) (cl : List JField) :
    (f.setChildren (some cl)).childList = cl := by
  cases f; rfl

theorem fields_of_shaped_object {f : JField}
    (hsh : ensureFieldShape f = f) (hobj : f.type = some "object") :
    f.fields = some f.childList := by
  cases f with
  | mk n t v c e r rf =>
    simp only [JField.type] at hobj
    subst hobj
    simp [ensureFieldShape, JField.childList, JField.name, JField.type,
      JField.values_csv, JField.expanded, JField.required, JField.ref,
      JField.fields] at hsh ⊢
    exact hsh.2.1.symm

theorem setChildren_self {f : JField}
    (hsh : ensureFieldShape f = f) (hobj : f.type = some "object") :
    f.setChildren (some f.childList) = f := by
  have hf := fields_of_shaped_object hsh hobj
  cases f with
  | mk n t v c e r rf =>
    simp only [JField.fields, JField.childList] at hf
    simp only [JField.setChildren, JField.childList]
    rw [← hf]

theorem ensureFieldShape_setChildren {f : JField}
    (hsh : ensureFieldShape f = f) (hobj : f.type = some "object")
    (cl : List JField) :
    ensureFieldShape (f.setChildren (some cl)) = f.setChildren (some cl) := by
  cases f with
  | mk n t v c e r rf =>
    simp only [JField.type] at hobj
    subst hobj
    simp [ensureFieldShape, JField.setChildren, JField.childList, JField.name,
      JField.type, JField.values_csv, JField.expanded, JField.required,
      JField.ref, JField.fields] at hsh ⊢
    exact ⟨hsh.1, hsh.2.2.1, hsh.2.2.2.1, hsh.2.2.2.2⟩

theorem getFieldByPath_cons_descend {l : List JField} {j : Nat}
    (h : j < l.length) (hsh : ensureFieldShape l[j] = l[j])
    (hobj : l[j].type = some "object") (p : List Nat) (hp : p ≠ []) :
    getFieldByPath l (j :: p) = getFieldByPath l[j].childList p := by
  cases p with
  | nil => exact absurd rfl hp
  | cons q qs => simp [getFieldByPath, h, hsh, hobj]

theorem getFieldsListAtPath_cons {l : List JField} {j : Nat}
    (h : j < l.length) (hsh : ensureFieldShape l[j] = l[j])
    (hobj : l[j].type = some "object") (q : List Nat) :
    getFieldsListAtPath l (j :: q) = getFieldsListAtPath l[j].childList q := by
  cases q with
  | nil =>
    simp [getFieldsListAtPath, getFieldByPath, h, hsh, hobj]
  | cons a as =>
    simp only [getFieldsListAtPath, List.cons_ne_nil, if_false]
    rw [getFieldByPath_cons_descend h hsh hobj (a :: as) (by simp)]

theorem removeAt_resolve_ne_aux :
    ∀ (p : List Nat) (l : List JField) (f g : JField),
      wellShapedB l = true → siblingsNodupB l = true →
      getFieldByPath l p = some f →
      getFieldByPath (removeAt l p) p = some g → g ≠ f := by
  intro p
  induction p with
  | nil => intro l f g _ _ hres _; simp [getFieldByPath] at hres
  | cons j rest ih =>
    intro l f g hw hn hres hres'
    cases rest with
    | nil =>
      simp only [getFieldByPath] at hres
      split at hres
      case isTrue h =>
        have hw0 := wellShapedB_getElem hw h
        have hf : f = l[j] := by
          rw [hw0.1] at hres; exact (Option.some.inj hres).symm
        have hrm : removeAt l [j] = l.eraseIdx j := by simp [removeAt, h]
        rw [hrm] at hres'
        simp only [getFieldByPath] at hres'
        split at hres'
        case isTrue h2 =>
          have hlen : j + 1 < l.length := by
            rw [List.length_eraseIdx] at h2
            split at h2 <;> omega
          have hE : (l.eraseIdx j)[j] = l[j + 1] :=
            List.getElem_eraseIdx_of_ge l j j h2 le_rfl
          have hg : g = l[j + 1] := by
            rw [hE, (wellShapedB_getElem hw hlen).1] at hres'
            exact (Option.some.inj hres').symm
          rw [hf, hg]
          intro hgf
          have := ((siblingsNodupB_nodup hn).getElem_inj_iff).mp hgf
          omega
        case isFalse => simp at hres'
      case isFalse => simp at hres
    | cons q qs =>
      simp only [getFieldByPath] at hres
      split at hres
      case isTrue h =>
        have hw0 := wellShapedB_getElem hw h
        rw [hw0.1] at hres
        split at hres
        case isTrue hobj =>
          set x := l[j].setChildren (some (removeAt l[j].childList (q :: qs)))
            with hx
          have hrm : removeAt l (j :: q :: qs) = l.set j x := by
            simp [removeAt, h, hw0.1, hobj, hx]
          rw [hrm] at hres'
          have hlen2 : j < (l.set j x).length := by simp [h]
          have hshx : ensureFieldShape (l.set j x)[j] = (l.set j x)[j] := by
            simp only [List.getElem_set_self]
            rw [hx]
            exact ensureFieldShape_setChildren hw0.1 hobj _
          have hobjx : (l.set j x)[j].type = some "object" := by
            simp only [List.getElem_set_self]
            rw [hx, type_setChildren]; exact hobj
          rw [getFieldByPath_cons_descend hlen2 hshx hobjx (q :: qs) (by simp)]
            at hres'
          simp only [List.getElem_set_self] at hres'
          rw [hx, childList_setChildren] at hres'
          exact ih l[j].childList f g hw0.2 (siblingsNodupB_getElem hn h)
            hres hres'
        case isFalse => simp at hres
      case isFalse => simp at hres

theorem removeAt_oob_aux :
    ∀ (q : List Nat) (l : List JField) (i : Nat),
      wellShapedB l = true →
      (∀ sibs, getFieldsListAtPath l q = some sibs → sibs.length ≤ i) →
      removeAt l (q ++ [i]) = l := by
  intro q
  induction q with
  | nil =>
    intro l i hw hb
    have hlen := hb l (by simp [getFieldsListAtPath])
    simp only [List.nil_append, removeAt]
    rw [if_neg (by omega)]
  | cons j q' ih =>
    intro l i hw hb
    obtain ⟨a, as, hqq⟩ : ∃ a as, q' ++ [i] = a :: as := by
      cases q' <;> exact ⟨_, _, rfl⟩
    by_cases h : j < l.length
    · have hw0 := wellShapedB_getElem hw h
      by_cases hobj : l[j].type = some "object"
      · have hrec : removeAt l[j].childList (q' ++ [i]) = l[j].childList := by
          apply ih _ i hw0.2
          intro sibs hs
          apply hb
          rw [getFieldsListAtPath_cons h hw0.1 hobj]
          exact hs
        have : (j :: q') ++ [i] = j :: a :: as := by simp [hqq]
        rw [this, removeAt]
        rw [dif_pos h, hw0.1, if_pos hobj, ← hqq, hrec,
          setChildren_self hw0.1 hobj]
        exact set_getElem_self_eq h
      · have : (j :: q') ++ [i] = j :: a :: as := by simp [hqq]
        rw [this, removeAt]
        rw [dif_pos h, hw0.1, if_neg hobj]
        exact set_getElem_self_eq h
    · have : (j :: q') ++ [i] = j :: a :: as := by simp [hqq]
      rw [this, removeAt, dif_neg h]

/-- C7. Removing the field addressed by a resolvable path `p` and then
resolving the same, now stale, `p` never yields the removed field: any
successful re-resolution returns a different field (so the result is either a
different field or `none`). And when the last index of the path is out of
range of its parent's sibling list — in particular whenever the resolved
sibling list is shorter than the index — `removeAt` leaves the tree
unchanged. Stated for well-shaped trees (lazy normalisation is a no-op) whose
sibling lists hold pairwise-distinct field values, modelling the distinct
object identities of the rows. -/
theorem removeAt_stale_resolution :
    (∀ (l : List JField) (p : List Nat) (f g : JField),
        wellShapedB l = true → siblingsNodupB l = true →
        getFieldByPath l p = some f →
        getFieldByPath (removeAt l p) p = some g → g ≠ f)
    ∧ (∀ (l : List JField) (q : List Nat) (i : Nat),
        wellShapedB l = true →
        (∀ sibs, getFieldsListAtPath l q = some sibs → sibs.length ≤ i) →
        removeAt l (q ++ [i]) = l) :=
  ⟨fun l p f g hw hn hres hres' =>
      removeAt_resolve_ne_aux p l f g hw hn hres hres',
   fun l q i hw hb => removeAt_oob_aux q l i hw hb⟩

theorem wellShapedB_nil : wellShapedB [] = true := by rw [wellShapedB]

theorem wellShapedB_cons (f : JField) (rest : List JField) :
    wellShapedB (f :: rest)
      = (decide (ensureFieldShape f = f) && wellShapedB f.childList
          && wellShapedB rest) := by
  rw [wellShapedB]

theorem siblingsNodupB_nil : siblingsNodupB [] = true := by rw [siblingsNodupB]

theorem siblingsNodupB_cons (f : JField) (rest : List JField) :
    siblingsNodupB (f :: rest)
      = (!(rest.contains f) && siblingsNodupB f.childList
          && siblingsNodupB rest) := by
  rw [siblingsNodupB]

def demoA : JField := .mk (some "a") (some "str") none none none (some false) none

def demoB : JField := .mk (some "b") (some "int") none none none (some false) none

theorem removeAt_stale_resolution_witness :
    demoB ≠ demoA ∧ removeAt [demoA, demoB] ([] ++ [7]) = [demoA, demoB] :=
  ⟨removeAt_stale_resolution.1 [demoA, demoB] [0] demoA demoB
      (by
        simp [wellShapedB_cons, wellShapedB_nil, demoA, demoB,
          JField.childList, ensureFieldShape, JField.name, JField.type,
          JField.values_csv, JField.expanded, JField.required, JField.ref])
      (by
        simp [siblingsNodupB_cons, siblingsNodupB_nil, demoA, demoB,
          JField.childList])
      (by decide) (by decide),
   removeAt_stale_resolution.2 [demoA, demoB] [] 7
      (by
        simp [wellShapedB_cons, wellShapedB_nil, demoA, demoB,
          JField.childList, ensureFieldShape, JField.name, JField.type,
          JField.values_csv, JField.expanded, JField.required, JField.ref])
      (fun sibs hs => by
        simp [getFieldsListAtPath] at hs
        simp [← hs])⟩

/-- A serialized field definition in the persisted document: a bare primitive
type string, a single-select definition with its values list, an object
definition with a nested field mapping, or a reference definition. -/
inductive DocVal : Type where
  | str (s : String)
  | sel (values : List String)
  | obj (fields : List (String × DocVal))
  | refv (target : String)

/-- The persisted `fields` mapping, modelled as an insertion-ordered
association list: assigning to an existing key overwrites its value in place,
assigning a fresh key appends. -/
def insertFD : List (String × DocVal) → String → DocVal → List (String × DocVal)
  | [], k, v => [(k, v)]
  | (k', v') :: rest, k, v =>
    if k' = k then (k, v) :: rest else (k', v') :: insertFD rest k v

/-- The single-select serializer's values computation
(web/functions/yamlish.js): trim the stored CSV, split on commas, trim each
part and drop empties. -/
def splitCsv (csv : String) : List String :=
  let c := jsTrim csv
  if c = "" then []
  else ((jsSplitComma c).map jsTrim).filter (fun x => x ≠ "")

/-- The loop of `buildFieldsDocFromList` (web/functions/yamlish.js), with the
mapping built so far as accumulator: shape a copy of each field, skip fields
with an empty trimmed name, serialize primitives to their bare type string,
single-selects to their normalized values, objects recursively — and nothing
else (in particular `ref` fields fall through every branch and are omitted). -/
def buildGo (l : List JField) (acc : List (String × DocVal)) :
    List (String × DocVal) :=
  match l with
  | [] => acc
  | f0 :: rest =>
    let f := ensureFieldShape f0
    let t := f.type.getD ""
    let nm := jsTrim (f.name.getD "")
    if nm = "" then buildGo rest acc
    else if PRIMITIVE_TYPES.contains t then
      buildGo rest (insertFD acc nm (.str t))
    else if t = "single-select" then
      buildGo rest (insertFD acc nm (.sel (splitCsv (f.values_csv.getD ""))))
    else if t = "object" then
      buildGo rest (insertFD acc nm (.obj (buildGo f0.childList [])))
    else buildGo rest acc
termination_by sizeOf l
decreasing_by
  all_goals have := sizeOf_childList_lt f0
  all_goals simp
  all_goals try omega

/-- `buildFieldsDocFromList` from web/functions/yamlish.js. -/
def buildFieldsDocFromList (l : List JField) : List (String × DocVal) :=
  buildGo l []

/-- `docFieldsToStateList` from web/functions/yamlish.js: a string value
becomes a primitive field of that type; a `single-select` value becomes a
single-select field with the values joined by a comma for editing; an
`object` value becomes a collapsed object field with recursively decoded
children; any other definition shape is skipped. -/
def docFieldsToStateList (m : List (String × DocVal)) : List JField :=
  match m with
  | [] => []
  | (k, v) :: rest =>
    match v with
    | .str s =>
      ensureFieldShape (.mk (some k) (some s) none none none none none)
        :: docFieldsToStateList rest
    | .sel values =>
      ensureFieldShape
          (.mk (some k) (some "single-select")
            (some (String.intercalate ", " values)) none none none none)
        :: docFieldsToStateList rest
    | .obj fs =>
      ensureFieldShape
          (.mk (some k) (some "object") none (some (docFieldsToStateList fs))
            (some false) none none)
        :: docFieldsToStateList rest
    | .refv _ => docFieldsToStateList rest
termination_by sizeOf m
decreasing_by
  all_goals simp
  all_goals omega

/-- A Reference field as the ref-aware editor creates it: named `physical`,
targeting schema `PersonPhysical`. -/
def refField : JField :=
  .mk (some "physical") (some "ref") none none none (some false)
    (some "PersonPhysical")

/-- C4. The serializer drops Reference fields: for the well-formed `ref`
field `physical → PersonPhysical` (a field kind the editor's type list
offers and `ensureFieldShape` preserves), `buildFieldsDocFromList` emits no
entry at all — it neither produces the documented
`type: ref, ref: target` definition nor distinguishes empty from non-empty
targets. -/
theorem buildFieldsDoc_drops_ref :
    buildFieldsDocFromList [refField] = []
      ∧ (ensureFieldShape refField).type = some "ref"
      ∧ (ensureFieldShape refField).ref = some "PersonPhysical"
      ∧ "ref" ∈ FIELD_TYPES := by
  refine ⟨?_, by decide, by decide, by decide⟩
  have h1 : jsTrim "physical" = "physical" := by decide
  rw [buildFieldsDocFromList, buildGo]
  simp [ensureFieldShape, JField.name, JField.type, JField.values_csv,
    JField.ref, JField.childList, refField, h1, PRIMITIVE_TYPES, buildGo]

/-- Case-insensitive first-seen deduplication with the set of already-seen
lowercased keys as accumulator (`normalizeValuesToCsv`'s loop,
web/functions/inline_edit.js). -/
def dedupeCIAux : List String → List String → List String
  | [], _ => []
  | s :: rest, seen =>
    if seen.contains (jsToLower s) then dedupeCIAux rest seen
    else s :: dedupeCIAux rest (jsToLower s :: seen)

/-- `normalizeValuesToCsv` from web/functions/inline_edit.js: split the text
on commas, pipes and newlines, trim each part, drop empties, dedupe
case-insensitively keeping first-seen order and casing, and join with a
comma and space. -/
def normalizeValuesToCsv (text : String) : String :=
  let parts :=
    ((splitPredAux (fun c => c = ',' || c = '|' || c = '\n') text.data []).map
        jsTrim).filter (fun x => x ≠ "")
  String.intercalate ", " (dedupeCIAux parts [])

example : normalizeValuesToCsv "Blue, blue,  Green " = "Blue, Green" := by
  decide

/-- A single-select field whose stored values text holds a case-insensitive
duplicate. -/
def sel1 : JField :=
  .mk (some "c") (some "single-select") (some "Blue, blue,  Green ") none none
    none none

/-- C8 counterexample. Serializing the single-select field with stored values
text `Blue, blue,  Green ` emits `values = [Blue, blue, Green]`: the
serializer trims and drops empties but does not deduplicate, so the claimed
output `[Blue, Green]` is not what `treeToDocument` produces. -/
theorem singleSelect_serialize_counterexample :
    buildFieldsDocFromList [sel1] = [("c", .sel ["Blue", "blue", "Green"])]
      ∧ ("Blue" :: "blue" :: ["Green"]) ≠ ("Blue" :: ["Green"]) := by
  constructor
  · have h1 : jsTrim "c" = "c" := by decide
    have h2 : splitCsv "Blue, blue,  Green " = ["Blue", "blue", "Green"] := by
      decide
    rw [buildFieldsDocFromList, buildGo]
    simp [ensureFieldShape, JField.name, JField.type, JField.values_csv,
      JField.childList, sel1, h1, h2, PRIMITIVE_TYPES, buildGo, insertFD]
  · decide

/-- C8 amended. The serializer maps a single-select field with non-empty
trimmed name to exactly one entry whose values are the stored text split on
commas, trimmed and with empties dropped — no deduplication; the
case-insensitive first-seen deduplication (`Blue, blue,  Green ` becoming
`Blue, Green`) is performed by `normalizeValuesToCsv`, the normalizer applied
when the values text is edited. -/
theorem singleSelect_serialize_normalization :
    (∀ (nm csv : String), jsTrim nm ≠ "" →
        buildFieldsDocFromList
            [.mk (some nm) (some "single-select") (some csv) none none none
              none]
          = [(jsTrim nm, .sel (splitCsv csv))])
    ∧ normalizeValuesToCsv "Blue, blue,  Green " = "Blue, Green" := by
  constructor
  · intro nm csv hnm
    rw [buildFieldsDocFromList, buildGo]
    simp [ensureFieldShape, JField.name, JField.type, JField.values_csv,
      JField.childList, hnm, PRIMITIVE_TYPES, buildGo, insertFD]
  · decide

theorem singleSelect_serialize_normalization_witness :
    buildFieldsDocFromList
        [.mk (some "c") (some "single-select") (some "x") none none none none]
      = [("c", DocVal.sel ["x"])] := by
  have h := singleSelect_serialize_normalization.1 "c" "x" (by decide)
  have h1 : jsTrim "c" = "c" := by decide
  have h2 : splitCsv "x" = ["x"] := by decide
  rw [h, h1, h2]

/-- The mapping key a field serializes under: its trimmed name. -/
def fieldKey (f : JField) : String := jsTrim (f.name.getD "")

theorem name_ensureFieldShape (f : JField) :
    (ensureFieldShape f).name = some (f.name.getD "") := by
  cases f; rfl

/-- An editor field list in the round-trip law's domain: every field's name
is non-empty, already trimmed, and distinct from its siblings' trimmed names,
and every field's (shaped) type is a primitive, `single-select`, or `object`
— the kinds the codec serializes — with the same conditions holding
recursively for object children. -/
def goodTreeB (l : List JField) : Bool :=
  match l with
  | [] => true
  | f0 :: rest =>
    let f := ensureFieldShape f0
    let t := f.type.getD ""
    let nm := jsTrim (f.name.getD "")
    decide (nm = f.name.getD "") && decide (nm ≠ "")
      && (PRIMITIVE_TYPES.contains t || t = "single-select" || t = "object")
      && rest.all (fun g => decide (fieldKey g ≠ nm))
      && (if t = "object" then goodTreeB f0.childList else true)
      && goodTreeB rest
termination_by sizeOf l
decreasing_by
  all_goals have := sizeOf_childList_lt f0
  all_goals simp
  all_goals try omega

/-- The entry sequence the serializer emits, written without the
insertion-accumulator: each field contributes its block of zero or one
entries, in sibling order. -/
def encodeList (l : List JField) : List (String × DocVal) :=
  match l with
  | [] => []
  | f0 :: rest =>
    let f := ensureFieldShape f0
    let t := f.type.getD ""
    let nm := jsTrim (f.name.getD "")
    (if nm = "" then []
     else if PRIMITIVE_TYPES.contains t then [(nm, DocVal.str t)]
     else if t = "single-select" then
       [(nm, DocVal.sel (splitCsv (f.values_csv.getD "")))]
     else if t = "object" then [(nm, DocVal.obj (encodeList f0.childList))]
     else []) ++ encodeList rest
termination_by sizeOf l
decreasing_by
  all_goals have := sizeOf_childList_lt f0
  all_goals simp
  all_goals try omega

/-- Claim-side canonical image of a field list under the round-trip: same
order, names and kinds; primitives keep their type string; single-select
values are preserved modulo normalization (trim, drop empties) and rendered
back to the canonical comma-joined text; object children are mapped
recursively with `expanded` reset to `false`; `required` decodes to `false`
and no other property is present. -/
def canonList (l : List JField) : List JField :=
  match l with
  | [] => []
  | f0 :: rest =>
    let f := ensureFieldShape f0
    let t := f.type.getD ""
    let nm := jsTrim (f.name.getD "")
    (if nm = "" then []
     else if PRIMITIVE_TYPES.contains t then
       [.mk (some nm) (some t) none none none (some false) none]
     else if t = "single-select" then
       [.mk (some nm) (some "single-select")
          (some (String.intercalate ", " (splitCsv (f.values_csv.getD ""))))
          none none (some false) none]
     else if t = "object" then
       [.mk (some nm) (some "object") none (some (canonList f0.childList))
          (some false) (some false) none]
     else []) ++ canonList rest
termination_by sizeOf l
decreasing_by
  all_goals have := sizeOf_childList_lt f0
  all_goals simp
  all_goals try omega

theorem insertFD_fresh (acc : List (String × DocVal)) (k : String) (v : DocVal)
    (h : k ∉ acc.map Prod.fst) : insertFD acc k v = acc ++ [(k, v)] := by
  induction acc with
  | nil => rfl
  | cons kv rest ih =>
    simp only [List.map_cons, List.mem_cons] at h
    push_neg at h
    rw [insertFD, if_neg (fun hh => h.1 hh.symm), ih h.2]
    simp

theorem goodTreeB_cons_iff (f0 : JField) (rest : List JField) :
    goodTreeB (f0 :: rest) = true ↔
      (jsTrim ((ensureFieldShape f0).name.getD "")
          = (ensureFieldShape f0).name.getD ""
        ∧ jsTrim ((ensureFieldShape f0).name.getD "") ≠ ""
        ∧ (PRIMITIVE_TYPES.contains ((ensureFieldShape f0).type.getD "") = true
            ∨ (ensureFieldShape f0).type.getD "" = "single-select"
            ∨ (ensureFieldShape f0).type.getD "" = "object")
        ∧ (∀ g ∈ rest,
            fieldKey g ≠ jsTrim ((ensureFieldShape f0).name.getD ""))
        ∧ ((ensureFieldShape f0).type.getD "" = "object" →
            goodTreeB f0.childList = true)
        ∧ goodTreeB rest = true) := by
  rw [goodTreeB]
  by_cases ht : (ensureFieldShape f0).type.getD "" = "object" <;>
    simp [ht, and_assoc]

theorem buildGo_eq_encodeList :
    ∀ (n : Nat) (l : List JField), sizeOf l ≤ n →
      ∀ acc : List (String × DocVal), goodTreeB l = true →
        (∀ g ∈ l, fieldKey g ∉ acc.map Prod.fst) →
        buildGo l acc = acc ++ encodeList l := by
  intro n
  induction n with
  | zero =>
    intro l hl
    cases l with
    | nil => intro acc _ _; simp [buildGo, encodeList]
    | cons f0 rest => simp at hl
  | succ n ih =>
    intro l hl acc hg hfresh
    cases l with
    | nil => simp [buildGo, encodeList]
    | cons f0 rest =>
      obtain ⟨htrim, hne, hkind, hdistinct, hchild, hrest⟩ :=
        (goodTreeB_cons_iff f0 rest).mp hg
      have hkey0 : fieldKey f0
          = jsTrim ((ensureFieldShape f0).name.getD "") := by
        rw [fieldKey, name_ensureFieldShape]
        rfl
      have hsz1 : sizeOf rest ≤ n := by simp at hl; omega
      have hsz2 : sizeOf f0.childList ≤ n := by
        have := sizeOf_childList_lt f0; simp at hl; omega
      have hfresh0 : jsTrim ((ensureFieldShape f0).name.getD "")
          ∉ acc.map Prod.fst := by
        rw [← hkey0]; exact hfresh f0 (by simp)
      have hfreshrest : ∀ (v : DocVal) (g : JField), g ∈ rest →
          fieldKey g
            ∉ ((acc
                ++ [(jsTrim ((ensureFieldShape f0).name.getD ""), v)]).map
                  Prod.fst) := by
        intro v g hgmem
        simp only [List.map_append, List.mem_append, List.map_cons,
          List.map_nil, List.mem_singleton]
        push_neg
        exact ⟨hfresh g (List.mem_cons_of_mem _ hgmem), hdistinct g hgmem⟩
      simp only [buildGo, encodeList]
      simp only [if_neg hne]
      rcases hkind with hp | hss | hobj
      · simp only [if_pos hp]
        rw [insertFD_fresh _ _ _ hfresh0,
          ih rest hsz1 _ hrest (fun g hg2 => hfreshrest _ g hg2)]
        simp
      · have hpn : ¬(PRIMITIVE_TYPES.contains
            ((ensureFieldShape f0).type.getD "") = true) := by
          rw [hss]; decide
        simp only [if_neg hpn, if_pos hss]
        rw [insertFD_fresh _ _ _ hfresh0,
          ih rest hsz1 _ hrest (fun g hg2 => hfreshrest _ g hg2)]
        simp
      · have hpn : ¬(PRIMITIVE_TYPES.contains
            ((ensureFieldShape f0).type.getD "") = true) := by
          rw [hobj]; decide
        have hssn : ¬((ensureFieldShape f0).type.getD "" = "single-select") := by
          rw [hobj]; decide
        simp only [if_neg hpn, if_neg hssn, if_pos hobj]
        rw [ih f0.childList hsz2 [] (hchild hobj) (by simp)]
        rw [insertFD_fresh _ _ _ hfresh0,
          ih rest hsz1 _ hrest (fun g hg2 => hfreshrest _ g hg2)]
        simp

theorem decode_str_entry (nm t : String) (h1 : t ≠ "single-select")
    (h2 : t ≠ "object") (h3 : t ≠ "ref") :
    ensureFieldShape (.mk (some nm) (some t) none none none none none)
      = .mk (some nm) (some t) none none none (some false) none := by
  simp [ensureFieldShape, JField.name, JField.type, JField.values_csv,
    JField.childList, JField.expanded, JField.required, JField.ref, h1, h2, h3]

theorem decode_sel_entry (nm : String) (values : List String) :
    ensureFieldShape
        (.mk (some nm) (some "single-select")
          (some (String.intercalate ", " values)) none none none none)
      = .mk (some nm) (some "single-select")
          (some (String.intercalate ", " values)) none none (some false)
          none := by
  simp [ensureFieldShape, JField.name, JField.type, JField.values_csv,
    JField.childList, JField.expanded, JField.required, JField.ref]

theorem decode_obj_entry (nm : String) (children : List JField) :
    ensureFieldShape
        (.mk (some nm) (some "object") none (some children) (some false) none
          none)
      = .mk (some nm) (some "object") none (some children) (some false)
          (some false) none := by
  simp [ensureFieldShape, JField.name, JField.type, JField.values_csv,
    JField.childList, JField.expanded, JField.required, JField.ref]

theorem docFieldsToStateList_encodeList :
    ∀ (n : Nat) (l : List JField), sizeOf l ≤ n → goodTreeB l = true →
      docFieldsToStateList (encodeList l) = canonList l := by
  intro n
  induction n with
  | zero =>
    intro l hl
    cases l with
    | nil => intro _; simp [encodeList, docFieldsToStateList, canonList]
    | cons f0 rest => simp at hl
  | succ n ih =>
    intro l hl hg
    cases l with
    | nil => simp [encodeList, docFieldsToStateList, canonList]
    | cons f0 rest =>
      obtain ⟨htrim, hne, hkind, hdistinct, hchild, hrest⟩ :=
        (goodTreeB_cons_iff f0 rest).mp hg
      have hsz1 : sizeOf rest ≤ n := by simp at hl; omega
      have hsz2 : sizeOf f0.childList ≤ n := by
        have := sizeOf_childList_lt f0; simp at hl; omega
      simp only [encodeList, canonList, if_neg hne]
      rcases hkind with hp | hss | hobj
      · have h4 : (ensureFieldShape f0).type.getD "" = "uuid"
            ∨ (ensureFieldShape f0).type.getD "" = "int"
            ∨ (ensureFieldShape f0).type.getD "" = "str"
            ∨ (ensureFieldShape f0).type.getD "" = "decimal" := by
          have := hp
          simp [PRIMITIVE_TYPES] at this
          tauto
        have ht1 : (ensureFieldShape f0).type.getD "" ≠ "single-select" := by
          rcases h4 with h | h | h | h <;> rw [h] <;> decide
        have ht2 : (ensureFieldShape f0).type.getD "" ≠ "object" := by
          rcases h4 with h | h | h | h <;> rw [h] <;> decide
        have ht3 : (ensureFieldShape f0).type.getD "" ≠ "ref" := by
          rcases h4 with h | h | h | h <;> rw [h] <;> decide
        simp only [if_pos hp, List.cons_append, List.nil_append,
          docFieldsToStateList]
        rw [decode_str_entry _ _ ht1 ht2 ht3, ih rest hsz1 hrest]
      · have hpn : ¬(PRIMITIVE_TYPES.contains
            ((ensureFieldShape f0).type.getD "") = true) := by
          rw [hss]; decide
        simp only [if_neg hpn, if_pos hss, List.cons_append, List.nil_append,
          docFieldsToStateList]
        rw [decode_sel_entry, ih rest hsz1 hrest]
      · have hpn : ¬(PRIMITIVE_TYPES.contains
            ((ensureFieldShape f0).type.getD "") = true) := by
          rw [hobj]; decide
        have hssn : ¬((ensureFieldShape f0).type.getD ""
            = "single-select") := by
          rw [hobj]; decide
        simp only [if_neg hpn, if_neg hssn, if_pos hobj, List.cons_append,
          List.nil_append, docFieldsToStateList]
        rw [ih f0.childList hsz2 (hchild hobj), decode_obj_entry,
          ih rest hsz1 hrest]

/-- C1 amended. For every editor field list whose fields (recursively) have
non-empty, already-trimmed names that are unique among their siblings, and
whose kinds are all primitive, `single-select`, or `object`, decoding the
encoding returns exactly the claim-side canonical image: same order, names
and kinds; primitive type strings preserved; single-select values preserved
modulo normalization (trim, drop empties); object children preserved
recursively with `expanded` reset to `false`. -/
theorem roundtrip_modulo_normalization :
    ∀ l : List JField, goodTreeB l = true →
      docFieldsToStateList (buildFieldsDocFromList l) = canonList l := by
  intro l hg
  rw [buildFieldsDocFromList,
    buildGo_eq_encodeList (sizeOf l) l le_rfl [] hg (by simp)]
  simp only [List.nil_append]
  exact docFieldsToStateList_encodeList (sizeOf l) l le_rfl hg

theorem roundtrip_modulo_normalization_witness :
    docFieldsToStateList (buildFieldsDocFromList [demoA]) = [demoA] := by
  have h1 : jsTrim "a" = "a" := by decide
  have hg : goodTreeB [demoA] = true := by
    rw [goodTreeB]
    simp [demoA, ensureFieldShape, JField.name, JField.type, JField.childList,
      h1, PRIMITIVE_TYPES, goodTreeB]
  rw [roundtrip_modulo_normalization [demoA] hg]
  rw [canonList]
  simp [demoA, ensureFieldShape, JField.name, JField.type, JField.values_csv,
    JField.childList, h1, PRIMITIVE_TYPES, canonList]

/-- A primitive field whose stored name carries surrounding whitespace. -/
def spacedName : JField :=
  .mk (some " a ") (some "str") none none none (some false) none

def dupStr : JField := .mk (some "d") (some "str") none none none (some false) none

def dupInt : JField := .mk (some "d") (some "int") none none none (some false) none

/-- C1 counterexample. Three concrete inputs on which the round-trip law as
stated fails even though every field's name is non-empty after trimming:
a Reference field is dropped entirely (the encoder has no `ref` branch); a
name with surrounding whitespace comes back trimmed, so the decoded name
differs from the stored one; two siblings with the same name collapse into
the single, last-written mapping entry. -/
theorem roundtrip_counterexample :
    docFieldsToStateList (buildFieldsDocFromList [refField]) = []
      ∧ docFieldsToStateList (buildFieldsDocFromList [spacedName])
          = [.mk (some "a") (some "str") none none none (some false) none]
      ∧ (some " a " : Option String) ≠ some "a"
      ∧ docFieldsToStateList (buildFieldsDocFromList [dupStr, dupInt])
          = [.mk (some "d") (some "int") none none none (some false) none] := by
  refine ⟨?_, ?_, by decide, ?_⟩
  · have h1 : jsTrim "physical" = "physical" := by decide
    rw [buildFieldsDocFromList, buildGo]
    simp [ensureFieldShape, JField.name, JField.type, JField.values_csv,
      JField.ref, JField.childList, refField, h1, PRIMITIVE_TYPES, buildGo,
      docFieldsToStateList]
  · have h1 : jsTrim " a " = "a" := by decide
    rw [buildFieldsDocFromList, buildGo]
    simp [ensureFieldShape, JField.name, JField.type, JField.values_csv,
      JField.childList, spacedName, h1, PRIMITIVE_TYPES, buildGo, insertFD,
      docFieldsToStateList, JField.expanded, JField.required, JField.ref]
  · have h1 : jsTrim "d" = "d" := by decide
    rw [buildFieldsDocFromList, buildGo]
    simp [ensureFieldShape, JField.name, JField.type, JField.values_csv,
      JField.childList, dupStr, dupInt, h1, PRIMITIVE_TYPES, buildGo,
      insertFD, docFieldsToStateList, JField.expanded, JField.required,
      JField.ref]

/-- One node of the derived schema graph. -/
structure GNode where
  id : String
  label : String
  kind : String
  deriving DecidableEq

/-- One edge of the derived schema graph. -/
structure GEdge where
  kind : String
  fromPathKey : String
  toNodeId : String
  deriving DecidableEq

/-- `buildSchemaNodeId` from the PR3a editor: the trimmed schema name under a
`SCHEMA:` prefix, or `none` when the name trims to empty. -/
def buildSchemaNodeId (schemaName : Option String) : Option String :=
  let s := jsTrim (schemaName.getD "")
  if s = "" then none else some ("SCHEMA:" ++ s)

/-- One step of `deriveGraphFromState`'s row loop: field rows with a
non-empty trimmed name and kind `ref` whose target yields a node id add that
node if unseen and always push one edge; every other row leaves the graph
alone. -/
def graphStep (acc : List GNode × List GEdge) (row : Row) :
    List GNode × List GEdge :=
  match row with
  | .add_child _ _ => acc
  | .field p _ f =>
    let fname := jsTrim (f.name.getD "")
    if fname = "" then acc
    else if f.type = some "ref" then
      match buildSchemaNodeId f.ref with
      | none => acc
      | some toId =>
        ((if (acc.1.map GNode.id).contains toId then acc.1
          else acc.1 ++ [⟨toId, toId.drop 7, "schema"⟩]),
         acc.2 ++ [⟨"ref", pathKey p, toId⟩])
    else acc

/-- `deriveGraphFromState` from the PR3a editor: a synthetic root node — its
label the trimmed schema name or `(unnamed)` — then a walk over the flattened
rows collecting a deduplicated schema node per referenced name and one edge
per reference row. -/
def deriveGraphFromState (schema_name : Option String)
    (fieldsList : List JField) : List GNode × List GEdge :=
  let rootLabel :=
    if jsTrim (schema_name.getD "") = "" then "(unnamed)"
    else jsTrim (schema_name.getD "")
  (flattenRows fieldsList).foldl graphStep
    ([⟨"ROOT", rootLabel, "root"⟩], [])

/-- The reference rows of a row list (claim-side): field rows with non-empty
trimmed name, kind `ref`, and a target that trims to a non-empty schema name,
paired as (path, target node id). -/
def rowRefs (rows : List Row) : List (List Nat × String) :=
  rows.filterMap fun row =>
    match row with
    | .field p _ f =>
      if jsTrim (f.name.getD "") = "" then none
      else if f.type = some "ref" then
        match buildSchemaNodeId f.ref with
        | some toId => some (p, toId)
        | none => none
      else none
    | .add_child _ _ => none

/-- First-seen order-preserving deduplication against an accumulated list of
already-seen keys. -/
def firstSeenDedupAux : List String → List String → List String
  | [], _ => []
  | s :: rest, seen =>
    if seen.contains s then firstSeenDedupAux rest seen
    else s :: firstSeenDedupAux rest (s :: seen)

theorem firstSeenDedupAux_congr :
    ∀ (ts s1 s2 : List String), (∀ x ∈ ts, (x ∈ s1 ↔ x ∈ s2)) →
      firstSeenDedupAux ts s1 = firstSeenDedupAux ts s2 := by
  intro ts
  induction ts with
  | nil => intro s1 s2 _; rfl
  | cons t rest ih =>
    intro s1 s2 h
    have hmem : (s1.contains t) = (s2.contains t) := by
      have := h t (by simp)
      by_cases h1 : t ∈ s1
      · simp [h1, this.mp h1]
      · have h2 : t ∉ s2 := fun hx => h1 (this.mpr hx)
        simp [h1, h2]
    rw [firstSeenDedupAux, firstSeenDedupAux, hmem]
    by_cases h2 : s2.contains t = true
    · rw [if_pos h2, if_pos h2]
      exact ih s1 s2 (fun x hx => h x (by simp [hx]))
    · rw [if_neg h2, if_neg h2]
      rw [ih (t :: s1) (t :: s2)
        (fun x hx => by simp [h x (by simp [hx])])]

theorem firstSeenDedupAux_nodup :
    ∀ (ts seen : List String),
      (firstSeenDedupAux ts seen).Nodup
        ∧ ∀ x ∈ firstSeenDedupAux ts seen, x ∉ seen := by
  intro ts
  induction ts with
  | nil => intro seen; simp [firstSeenDedupAux]
  | cons t rest ih =>
    intro seen
    rw [firstSeenDedupAux]
    by_cases hc : seen.contains t = true
    · rw [if_pos hc]
      exact ih seen
    · rw [if_neg hc]
      have hrec := ih (t :: seen)
      have htn : t ∉ seen := by
        intro hmem
        exact hc (by simpa using List.elem_eq_true_of_mem hmem)
      constructor
      · refine List.nodup_cons.mpr ⟨?_, hrec.1⟩
        intro hmem
        exact absurd (List.mem_cons_self t seen) (hrec.2 t hmem)
      · intro x hx
        rcases List.mem_cons.mp hx with hx1 | hx2
        · subst hx1; exact htn
        · intro hxs
          exact hrec.2 x hx2 (List.mem_cons_of_mem _ hxs)

theorem firstSeenDedupAux_subset :
    ∀ (ts seen : List String), ∀ x ∈ firstSeenDedupAux ts seen, x ∈ ts := by
  intro ts
  induction ts with
  | nil => intro seen x hx; simp [firstSeenDedupAux] at hx
  | cons t rest ih =>
    intro seen x hx
    rw [firstSeenDedupAux] at hx
    by_cases hc : seen.contains t = true
    · rw [if_pos hc] at hx
      exact List.mem_cons_of_mem _ (ih seen x hx)
    · rw [if_neg hc] at hx
      rcases List.mem_cons.mp hx with hx1 | hx2
      · simp [hx1]
      · exact List.mem_cons_of_mem _ (ih (t :: seen) x hx2)

theorem graph_foldl_spec :
    ∀ (rows : List Row) (n0 : List GNode) (e0 : List GEdge),
      rows.foldl graphStep (n0, e0)
        = (n0 ++ (firstSeenDedupAux ((rowRefs rows).map Prod.snd)
              (n0.map GNode.id)).map
              (fun toId => ⟨toId, toId.drop 7, "schema"⟩),
           e0 ++ (rowRefs rows).map
              (fun pt => ⟨"ref", pathKey pt.1, pt.2⟩)) := by
  intro rows
  induction rows with
  | nil => intro n0 e0; simp [rowRefs, firstSeenDedupAux]
  | cons row rest ih =>
    intro n0 e0
    rw [List.foldl_cons]
    cases row with
    | add_child p d =>
      rw [show graphStep (n0, e0) (.add_child p d) = (n0, e0) from rfl, ih]
      simp [rowRefs]
    | field p d f =>
      by_cases hname : jsTrim (f.name.getD "") = ""
      · have hstep : graphStep (n0, e0) (.field p d f) = (n0, e0) := by
          simp [graphStep, hname]
        rw [hstep, ih]
        simp [rowRefs, List.filterMap_cons, hname]
      · by_cases htype : f.type = some "ref"
        · cases hbid : buildSchemaNodeId f.ref with
          | none =>
            have hstep : graphStep (n0, e0) (.field p d f) = (n0, e0) := by
              simp [graphStep, hname, htype, hbid]
            rw [hstep, ih]
            simp [rowRefs, List.filterMap_cons, hname, htype, hbid]
          | some toId =>
            have hrefs : rowRefs (Row.field p d f :: rest)
                = (p, toId) :: rowRefs rest := by
              simp [rowRefs, List.filterMap_cons, hname, htype, hbid]
            rw [hrefs]
            simp only [graphStep, if_neg hname, if_pos htype, hbid]
            by_cases hseen : ((n0.map GNode.id).contains toId) = true
            · rw [if_pos hseen, ih]
              rw [List.map_cons, firstSeenDedupAux, if_pos hseen]
              simp
            · rw [if_neg hseen, ih]
              rw [List.map_cons, firstSeenDedupAux, if_neg hseen]
              have hseeneq : ∀ x ∈ (rowRefs rest).map Prod.snd,
                  (x ∈ (n0
                        ++ [(⟨toId, toId.drop 7, "schema"⟩ : GNode)]).map
                          GNode.id
                    ↔ x ∈ toId :: n0.map GNode.id) := by
                intro x _
                simp [or_comm]
              rw [firstSeenDedupAux_congr _ _ _ hseeneq]
              simp
        · have hstep : graphStep (n0, e0) (.field p d f) = (n0, e0) := by
            simp [graphStep, hname, htype]
          rw [hstep, ih]
          simp [rowRefs, List.filterMap_cons, hname, htype]

theorem rowRefs_snd_ne_root :
    ∀ (rows : List Row) (pt : List Nat × String), pt ∈ rowRefs rows →
      pt.2 ≠ "ROOT" := by
  intro rows pt hmem
  simp only [rowRefs, List.mem_filterMap] at hmem
  obtain ⟨row, -, hrow⟩ := hmem
  cases row with
  | add_child p d => simp at hrow
  | field p d f =>
    by_cases hname : jsTrim (f.name.getD "") = ""
    · simp [hname] at hrow
    · by_cases htype : f.type = some "ref"
      · simp only [hname, htype, if_neg, if_pos, if_false, if_true] at hrow
        rcases hbid : buildSchemaNodeId f.ref with _ | toId
        · simp [hbid, hname] at hrow
        · simp [hbid, hname] at hrow
          subst hrow
          have hto : toId = "SCHEMA:" ++ jsTrim (f.ref.getD "") := by
            simp only [buildSchemaNodeId] at hbid
            split at hbid
            · simp at hbid
            · exact (Option.some.inj hbid).symm
          intro hroot
          have hroot2 : toId = "ROOT" := hroot
          rw [hto] at hroot2
          have hlen := congrArg String.length hroot2
          rw [String.length_append] at hlen
          have h7 : ("SCHEMA:" : String).length = 7 := by decide
          have h4 : ("ROOT" : String).length = 4 := by decide
          omega
      · simp [hname, htype] at hrow

/-- C2 amended. `deriveGraphFromState` always emits the synthetic root node
first (labelled with the trimmed schema name or `(unnamed)`), and then: one
schema node per distinct referenced name and one edge `(pathKey(ownerPath),
SCHEMA:target)` per Reference field that appears as a flattened row — i.e.
whose enclosing objects are all expanded — and has a non-empty trimmed name
and a non-empty trimmed target. Node ids are pairwise distinct
(deduplication), in first-seen order. -/
theorem deriveGraph_spec :
    ∀ (sn : Option String) (l : List JField),
      deriveGraphFromState sn l
        = (⟨"ROOT",
              if jsTrim (sn.getD "") = "" then "(unnamed)"
              else jsTrim (sn.getD ""), "root"⟩
            :: (firstSeenDedupAux ((rowRefs (flattenRows l)).map Prod.snd)
                []).map (fun toId => ⟨toId, toId.drop 7, "schema"⟩),
           (rowRefs (flattenRows l)).map
             (fun pt => ⟨"ref", pathKey pt.1, pt.2⟩))
        ∧ ((deriveGraphFromState sn l).1.map GNode.id).Nodup := by
  intro sn l
  have hfold := graph_foldl_spec (flattenRows l)
    [⟨"ROOT",
        if jsTrim (sn.getD "") = "" then "(unnamed)" else jsTrim (sn.getD ""),
        "root"⟩] []
  have hcong := firstSeenDedupAux_congr
    ((rowRefs (flattenRows l)).map Prod.snd) ["ROOT"] []
    (by
      intro x hx
      simp only [List.mem_singleton, List.not_mem_nil, iff_false]
      simp only [List.mem_map] at hx
      obtain ⟨pt, hpt, hxeq⟩ := hx
      subst hxeq
      exact rowRefs_snd_ne_root _ pt hpt)
  have hmain : deriveGraphFromState sn l
      = (⟨"ROOT",
            if jsTrim (sn.getD "") = "" then "(unnamed)"
            else jsTrim (sn.getD ""), "root"⟩
          :: (firstSeenDedupAux ((rowRefs (flattenRows l)).map Prod.snd)
              []).map (fun toId => ⟨toId, toId.drop 7, "schema"⟩),
         (rowRefs (flattenRows l)).map
           (fun pt => ⟨"ref", pathKey pt.1, pt.2⟩)) := by
    rw [deriveGraphFromState, hfold]
    simp only [List.map_cons, List.map_nil, List.nil_append]
    rw [hcong]
    simp
  refine ⟨hmain, ?_⟩
  rw [hmain]
  simp only [List.map_cons]
  refine List.nodup_cons.mpr ⟨?_, ?_⟩
  · rw [List.map_map]
    have hcomp : (GNode.id ∘ fun toId =>
        (⟨toId, toId.drop 7, "schema"⟩ : GNode)) = id := by
      funext x; rfl
    rw [hcomp, List.map_id]
    intro hmem
    have hsub := firstSeenDedupAux_subset
      ((rowRefs (flattenRows l)).map Prod.snd) [] _ hmem
    simp only [List.mem_map] at hsub
    obtain ⟨pt, hpt, hpteq⟩ := hsub
    exact rowRefs_snd_ne_root _ pt hpt hpteq
  · have hnd := (firstSeenDedupAux_nodup
      ((rowRefs (flattenRows l)).map Prod.snd) []).1
    rw [List.map_map]
    have : (GNode.id ∘ fun toId =>
        (⟨toId, toId.drop 7, "schema"⟩ : GNode)) = id := by
      funext x; rfl
    rw [this, List.map_id]
    exact hnd

/-- A named Reference field targeting schema `B`, stored inside a collapsed
object. -/
def hiddenRef : JField :=
  .mk (some "r") (some "ref") none none none (some false) (some "B")

def collapsedObj : JField :=
  .mk (some "o") (some "object") none (some [hiddenRef]) (some false)
    (some false) none

/-- A Reference field with an empty name and a non-empty target. -/
def unnamedRef : JField :=
  .mk (some "") (some "ref") none none none (some false) (some "B")

/-- C2 counterexample. Two states falsify the claim as stated: (1) with a
Reference field `r → B` nested inside a collapsed object — the field is
resolvable at path `[0, 0]` and has a non-empty target — the derived graph
holds only the root node and no edge, because the row walk skips collapsed
subtrees; (2) a root-level Reference field with an empty name and non-empty
target is likewise skipped. -/
theorem deriveGraph_counterexample :
    deriveGraphFromState (some "S") [collapsedObj]
        = ([⟨"ROOT", "S", "root"⟩], [])
      ∧ getFieldByPath [collapsedObj] [0, 0] = some (ensureFieldShape hiddenRef)
      ∧ (ensureFieldShape hiddenRef).type = some "ref"
      ∧ jsTrim ((ensureFieldShape hiddenRef).ref.getD "") = "B"
      ∧ deriveGraphFromState (some "S") [unnamedRef]
          = ([⟨"ROOT", "S", "root"⟩], []) := by
  have hS : jsTrim "S" = "S" := by decide
  have hO : jsTrim "o" = "o" := by decide
  have hE : jsTrim "" = "" := by decide
  refine ⟨?_, by decide, by decide, by decide, ?_⟩
  · rw [deriveGraphFromState]
    have hrows : flattenRows [collapsedObj] = [Row.field [0] 0
        (.mk (some "o") (some "object") none (some [hiddenRef]) (some false)
          (some false) none)] := by
      rw [flattenRows, flattenGo]
      simp [ensureFieldShape, JField.name, JField.type, JField.values_csv,
        JField.childList, JField.expanded, JField.required, JField.ref,
        collapsedObj, flattenGo]
    rw [hrows]
    simp [graphStep, hS, hO, JField.name, JField.type]
  · rw [deriveGraphFromState]
    have hrows : flattenRows [unnamedRef] = [Row.field [0] 0
        (.mk (some "") (some "ref") none none none (some false)
          (some "B"))] := by
      rw [flattenRows, flattenGo]
      simp [ensureFieldShape, JField.name, JField.type, JField.values_csv,
        JField.childList, JField.expanded, JField.required, JField.ref,
        unnamedRef, flattenGo]
    rw [hrows]
    simp [graphStep, hS, hE, JField.name, JField.type]

namespace JField

/-- Overwrite (or delete, with `none`) the `ref` property of a field. -/
def setRef : JField → Option String → JField
  | .mk n t v c e r _, rf => .mk n t v c e r rf

end JField

/-- A known schema set: each schema name with the list of schema names its
own reference fields target. -/
def schemaRefs (schemas : List (String × List String)) (name : String) :
    List String :=
  match schemas.find? (fun s => s.1 == name) with
  | some s => s.2
  | none => []

def totalRefs (schemas : List (String × List String)) : Nat :=
  (schemas.map (fun s => s.2.length)).sum

/-- Modelled from the spec: `wouldCreateCycle` (§4.5, CycleGuard) has no
implementation in the source — the editor defers cycle handling to "later
validation" — so its depth-first search is modelled from the spec's words:
starting at the candidate edge's target schema, follow each schema's own
outgoing reference edges, reporting a cycle when the traversal reaches the
schema owning the candidate edge's source field, with a visited set and
enough fuel to exhaust every reference edge. -/
def dfsCycle (schemas : List (String × List String)) (owner : String) :
    Nat → List String → List String → Bool
  | 0, _, _ => false
  | _ + 1, _, [] => false
  | fuel + 1, visited, x :: stack =>
    if x = owner then true
    else if visited.contains x then dfsCycle schemas owner fuel visited stack
    else
      dfsCycle schemas owner fuel (x :: visited)
        (schemaRefs schemas x ++ stack)

/-- Modelled from the spec: the CycleGuard entry point — depth-first search
from the candidate edge's target, cycle iff the owner schema is reached
(self-reference included, since the target itself is checked first). -/
def wouldCreateCycle (schemas : List (String × List String))
    (ownerSchema target : String) : Bool :=
  dfsCycle schemas ownerSchema (totalRefs schemas + 2) [] [target]

/-- The reference-picker commit behaviour (`openRefPicker`'s context-menu
callback, PR3a editor): `(clear)` deletes the ref and commits; the manual
entry item and the divider commit nothing immediately; any other pick stores
its trimmed text as the ref (deleting the ref when it trims to empty) and
commits — without consulting any cycle guard. -/
def refPickerPick (field : JField) (picked : String) : Option JField :=
  if picked = "(clear)" then some (field.setRef none)
  else if picked = "(manual entry…)" then none
  else if picked = "────────" then none
  else
    let r := jsTrim picked
    some (field.setRef (if r = "" then none else some r))

/-- The `A → B → C → A` schema set of the claim. -/
def cycleSchemas : List (String × List String) :=
  [("A", ["B"]), ("B", ["C"]), ("C", ["A"])]

/-- C3 counterexample. With schemas `A → B → C → A`, the guard (as the spec
defines it) reports a cycle for the candidate edge `C → A`; yet the editor's
reference picker, asked to set that very target on a field of schema `C`,
commits `ref = "A"` unconditionally — no cycle check runs before the commit,
so the candidate edge is not rejected before being committed. -/
theorem refPicker_commits_despite_cycle :
    wouldCreateCycle cycleSchemas "C" "A" = true
      ∧ refPickerPick
          (.mk (some "x") (some "ref") none none none (some false) none) "A"
        = some
            (.mk (some "x") (some "ref") none none none (some false)
              (some "A")) := by
  constructor
  · decide
  · decide

/-- C3 amended. The spec-modelled `wouldCreateCycle` behaves as claimed:
any self-reference is a cycle (degenerate case — for every schema set and
every name, a candidate edge from a schema to itself is reported); on
`A → B → C → A` the candidate edge `C → A` is a cycle while `C → D` (D
unrelated) is not. But the editor does not reject detected cycles before
commit: for every field and every regular pick, the picker stores the
trimmed target and commits, independent of any schema set. -/
theorem wouldCreateCycle_spec :
    (∀ (schemas : List (String × List String)) (n : String),
        wouldCreateCycle schemas n n = true)
      ∧ wouldCreateCycle cycleSchemas "C" "A" = true
      ∧ wouldCreateCycle cycleSchemas "C" "D" = false
      ∧ (∀ (f : JField) (picked : String),
          picked ≠ "(clear)" → picked ≠ "(manual entry…)" →
          picked ≠ "────────" → jsTrim picked ≠ "" →
          refPickerPick f picked = some (f.setRef (some (jsTrim picked)))) := by
  refine ⟨?_, by decide, by decide, ?_⟩
  · intro schemas n
    rw [wouldCreateCycle, dfsCycle]
    simp
  · intro f picked h1 h2 h3 h4
    rw [refPickerPick, if_neg h1, if_neg h2, if_neg h3]
    simp [h4]

theorem wouldCreateCycle_spec_witness :
    refPickerPick
        (.mk (some "x") (some "ref") none none none (some false) none)
        "MySchema"
      = some
          ((JField.mk (some "x") (some "ref") none none none (some false)
              none).setRef (some (jsTrim "MySchema"))) :=
  wouldCreateCycle_spec.2.2.2 _ "MySchema" (by decide) (by decide) (by decide)
    (by decide)

/-- The synchronous part of the type-picker callback (PR3a editor,
`onMouseDown` type branch): set the picked type, delete `values_csv` unless
the new type is `single-select`, delete `fields`/`expanded` unless it is
`object`, delete `ref` unless it is `ref`, and initialise an object's
children array and `expanded` flag (defaulting `expanded` to `true`). -/
def applyTypePick (f : JField) (picked : String) : JField :=
  let v := if picked ≠ "single-select" then none else f.values_csv
  let c0 := if picked ≠ "object" then none else f.fields
  let e0 := if picked ≠ "object" then none else f.expanded
  let rf := if picked ≠ "ref" then none else f.ref
  let c := if picked = "object" then some (c0.getD []) else c0
  let e := if picked = "object" then some (e0.getD true) else e0
  .mk f.name (some picked) v c e f.required rf

/-- The claim's kind-determines-shape invariant: a non-Object field carries
no children list or expanded flag, a non-SingleSelect field carries no values
text, a non-Reference field carries no target, and an Object field carries a
children list and a boolean expanded flag. -/
def KindShapeInv (f : JField) : Prop :=
  (f.type ≠ some "object" → f.fields = none ∧ f.expanded = none)
    ∧ (f.type ≠ some "single-select" → f.values_csv = none)
    ∧ (f.type ≠ some "ref" → f.ref = none)
    ∧ (f.type = some "object" →
        (∃ l, f.fields = some l) ∧ ∃ b, f.expanded = some b)

/-- An `int` field still carrying a stray values text. -/
def strayValues : JField :=
  .mk (some "a") (some "int") (some "x,y") none none (some false) none

/-- C9 counterexample. `ensureFieldShape` does not establish the invariant:
on an `int` field carrying a stray `values_csv` it is the identity — the
values text survives on a non-SingleSelect field, so the invariant's values
clause fails after `ensureFieldShape`. -/
theorem typePicker_invariant_counterexample :
    ensureFieldShape strayValues = strayValues
      ∧ (ensureFieldShape strayValues).type ≠ some "single-select"
      ∧ (ensureFieldShape strayValues).values_csv = some "x,y"
      ∧ ¬ KindShapeInv (ensureFieldShape strayValues) := by
  refine ⟨by decide, by decide, by decide, ?_⟩
  intro h
  have h3 := h.2.1 (by decide)
  rw [show (ensureFieldShape strayValues).values_csv = some "x,y" by decide]
    at h3
  exact Option.noConfusion h3

/-- C9 amended. A kind change through the type picker establishes the full
invariant: whatever the field held before, after `applyTypePick` a non-Object
kind carries no children or expanded flag, a non-SingleSelect kind no values
text, a non-Reference kind no target, and an Object kind an initialised
children array and a boolean expanded flag. `ensureFieldShape` enforces the
same invariant except for the values-text clause: it clears
`fields`/`expanded` on non-objects and `ref` on non-references and
initialises object shape, but leaves a stray values text on
non-single-select fields in place. -/
theorem typePicker_kind_shape :
    (∀ (f : JField) (picked : String), KindShapeInv (applyTypePick f picked))
      ∧ (∀ f : JField,
          ((ensureFieldShape f).type ≠ some "object" →
              (ensureFieldShape f).fields = none
                ∧ (ensureFieldShape f).expanded = none)
            ∧ ((ensureFieldShape f).type ≠ some "ref" →
                (ensureFieldShape f).ref = none)
            ∧ ((ensureFieldShape f).type = some "object" →
                (∃ l, (ensureFieldShape f).fields = some l)
                  ∧ ∃ b, (ensureFieldShape f).expanded = some b)) := by
  constructor
  · intro f picked
    refine ⟨?_, ?_, ?_, ?_⟩
    · intro h
      have hp : picked ≠ "object" := by
        intro hh
        exact h (by simp [applyTypePick, JField.type, hh])
      simp [applyTypePick, JField.fields, JField.expanded, hp]
    · intro h
      have hp : picked ≠ "single-select" := by
        intro hh
        exact h (by simp [applyTypePick, JField.type, hh])
      simp [applyTypePick, JField.values_csv, hp]
    · intro h
      have hp : picked ≠ "ref" := by
        intro hh
        exact h (by simp [applyTypePick, JField.type, hh])
      simp [applyTypePick, JField.ref, hp]
    · intro h
      have hp : picked = "object" := by
        simpa [applyTypePick, JField.type] using h
      simp [applyTypePick, JField.fields, JField.expanded, hp]
  · intro f
    obtain ⟨n, t, v, c, e, r, rf⟩ := f
    refine ⟨?_, ?_, ?_⟩ <;> intro h <;>
      simp [ensureFieldShape, JField.type, JField.fields, JField.expanded,
        JField.ref, JField.childList] at h ⊢ <;>
      simp [h]

theorem typePicker_kind_shape_witness :
    (applyTypePick strayValues "str").values_csv = none :=
  (typePicker_kind_shape.1 strayValues "str").2.1 (by decide)

/-- Stateful `getFieldByPath`: the source's walk normalises each visited
field in place (`cur = ensureFieldShape(list[idx])` mutates the stored
object, and object fields get their children array created), so the walk is
modelled as returning the updated root list alongside the result. -/
def getFieldByPathM (l : List JField) :
    List Nat → Option JField × List JField
  | [] => (none, l)
  | i :: rest =>
    if _ : i < l.length then
      let cur := ensureFieldShape l[i]
      match rest with
      | [] => (some cur, l.set i cur)
      | _ :: _ =>
        if cur.type = some "object" then
          let res := getFieldByPathM cur.childList rest
          (res.1, l.set i (cur.setChildren (some res.2)))
        else (none, l.set i cur)
    else (none, l)

/-- Stateful `flattenRows`: every visited field is normalised in place, and
the children of expanded objects are recursively visited (and therefore
normalised) as well. -/
def flattenGoM (l : List JField) (depth : Nat) (basePath : List Nat)
    (i : Nat) : List Row × List JField :=
  match l with
  | [] => ([], [])
  | f0 :: rest =>
    let f := ensureFieldShape f0
    let p := basePath ++ [i]
    let child :=
      if f.type = some "object" ∧ f.expanded = some true then
        let cr := flattenGoM f0.childList (depth + 1) p 0
        (cr.1 ++ [Row.add_child p (depth + 1)], some cr.2)
      else ([], none)
    let restR := flattenGoM rest depth basePath (i + 1)
    (Row.field p depth f :: (child.1 ++ restR.1),
     (match child.2 with
      | some cl => f.setChildren (some cl)
      | none => f) :: restR.2)
termination_by sizeOf l
decreasing_by
  all_goals have := sizeOf_childList_lt f0
  all_goals simp
  all_goals try omega

def flattenRowsM (l : List JField) : List Row × List JField :=
  flattenGoM l 0 [] 0

/-- Claim-side description of the state after a flattening pass: every field
replaced by its `ensureFieldShape` image, with the children of expanded
objects rewritten recursively. -/
def shapeVisited (l : List JField) : List JField :=
  match l with
  | [] => []
  | f0 :: rest =>
    let f := ensureFieldShape f0
    (if f.type = some "object" ∧ f.expanded = some true then
      f.setChildren (some (shapeVisited f0.childList))
    else f) :: shapeVisited rest
termination_by sizeOf l
decreasing_by
  all_goals have := sizeOf_childList_lt f0
  all_goals simp
  all_goals try omega

theorem flattenGoM_spec_aux :
    ∀ (n : Nat) (l : List JField), sizeOf l ≤ n →
      ∀ (d : Nat) (base : List Nat) (i : Nat),
        (flattenGoM l d base i).1 = flattenGo l d base i
          ∧ (flattenGoM l d base i).2 = shapeVisited l := by
  intro n
  induction n with
  | zero =>
    intro l hl
    cases l with
    | nil => intro d base i; simp [flattenGoM, flattenGo, shapeVisited]
    | cons f0 rest => simp at hl
  | succ n ih =>
    intro l hl d base i
    cases l with
    | nil => simp [flattenGoM, flattenGo, shapeVisited]
    | cons f0 rest =>
      have hsz1 : sizeOf rest ≤ n := by simp at hl; omega
      have hsz2 : sizeOf f0.childList ≤ n := by
        have := sizeOf_childList_lt f0; simp at hl; omega
      simp only [flattenGoM, flattenGo, shapeVisited]
      by_cases hc : (ensureFieldShape f0).type = some "object"
          ∧ (ensureFieldShape f0).expanded = some true <;>
        simp [hc, (ih f0.childList hsz2 (d + 1) (base ++ [i]) 0).1,
          (ih f0.childList hsz2 (d + 1) (base ++ [i]) 0).2,
          (ih rest hsz1 d base (i + 1)).1, (ih rest hsz1 d base (i + 1)).2]

theorem getFieldByPathM_fst :
    ∀ (p : List Nat) (l : List JField),
      (getFieldByPathM l p).1 = getFieldByPath l p := by
  intro p
  induction p with
  | nil => intro l; simp [getFieldByPathM, getFieldByPath]
  | cons i rest ih =>
    intro l
    simp only [getFieldByPathM, getFieldByPath]
    split
    · cases rest with
      | nil => rfl
      | cons a as =>
        by_cases hobj : (ensureFieldShape l[i]).type = some "object"
        · simp [hobj, ih]
        · simp [hobj]
    · rfl

def rawChild : JField := .mk none none none none none none none

def rawParent : JField :=
  .mk (some "p") (some "object") none (some [rawChild]) (some true) none none

/-- C10 counterexample. Flattening the `int` field that carries a stray
values text visits and re-stores it unchanged: the stray `values_csv` on a
non-SingleSelect field survives the pass, so reading does *not* delete every
property that fails to match the field's current kind. -/
theorem read_mutation_counterexample :
    (flattenRowsM [strayValues]).2 = [strayValues]
      ∧ strayValues.type = some "int"
      ∧ strayValues.values_csv = some "x,y" := by
  refine ⟨?_, by decide, by decide⟩
  rw [flattenRowsM, flattenGoM]
  simp [ensureFieldShape, JField.name, JField.type, JField.values_csv,
    JField.childList, JField.expanded, JField.required, JField.ref,
    strayValues, flattenGoM]

/-- C10 amended. Path resolution and flattening are not read-only: the
stateful embeddings return the mutated list alongside their result. A
flattening pass rewrites the stored state to `shapeVisited` — every field
replaced by its `ensureFieldShape` image, recursing through expanded
objects — while producing exactly the pure rows; resolving a path returns
the pure resolver's answer while re-storing shaped fields along the walk.
Concretely, visiting an object field with no stored children array, expanded
flag or required flag creates `fields = []` and defaults
`expanded = false` and `required = false` in the stored state (a real
mutation), visiting a nested bare field coerces its missing name and type to
`""` and `"str"` in place, and `ensureFieldShape` deletes
`fields`/`expanded` on non-objects and `ref` on non-references — though a
stray values text on a non-SingleSelect field is left in place. -/
theorem read_mutation_spec :
    (∀ (l : List JField) (d : Nat) (base : List Nat) (i : Nat),
        (flattenGoM l d base i).1 = flattenGo l d base i
          ∧ (flattenGoM l d base i).2 = shapeVisited l)
      ∧ (getFieldByPathM
            [.mk (some "h") (some "object") none none none none none] [0]).2
          = [.mk (some "h") (some "object") none (some []) (some false)
              (some false) none]
      ∧ (getFieldByPathM
            [.mk (some "h") (some "object") none none none none none] [0]).2
          ≠ [.mk (some "h") (some "object") none none none none none]
      ∧ (getFieldByPathM [rawParent] [0, 0]).2
          = [.mk (some "p") (some "object") none
              (some [.mk (some "") (some "str") none none none (some false)
                none])
              (some true) (some false) none]
      ∧ (∀ (l : List JField) (p : List Nat),
          (getFieldByPathM l p).1 = getFieldByPath l p)
      ∧ (∀ f : JField, (ensureFieldShape f).type ≠ some "object" →
          (ensureFieldShape f).fields = none
            ∧ (ensureFieldShape f).expanded = none)
      ∧ (∀ f : JField, (ensureFieldShape f).type ≠ some "ref" →
          (ensureFieldShape f).ref = none) :=
  ⟨fun l d base i => flattenGoM_spec_aux (sizeOf l) l le_rfl d base i,
   by decide, by decide, by decide,
   fun l p => getFieldByPathM_fst p l,
   fun f h => by
     obtain ⟨n, t, v, c, e, r, rf⟩ := f
     simp [ensureFieldShape, JField.type, JField.fields, JField.expanded] at h ⊢
     simp [h],
   fun f h => by
     obtain ⟨n, t, v, c, e, r, rf⟩ := f
     simp [ensureFieldShape, JField.type, JField.ref] at h ⊢
     simp [h]⟩

theorem read_mutation_spec_witness :
    (getFieldByPathM [rawParent] [0, 0]).1 = getFieldByPath [rawParent] [0, 0]
      ∧ (ensureFieldShape strayValues).fields = none :=
  ⟨read_mutation_spec.2.2.2.2.1 [rawParent] [0, 0],
   (read_mutation_spec.2.2.2.2.2.1 strayValues (by decide)).1⟩
